import Mathlib

/-! Formal model of creusot's trait translation (src/creusot/src/translation/traits.rs):
trait-item resolution (`TraitResolved::resolve_item`, `to_opt`), the specializability
analysis (`still_specializable`), and refinement obligation generation
(`translate_impl` / `logic_refinement_term`).

The rustc machinery the file calls into (type contexts, unification, coherence,
the specialization graph index, stable hashing) is represented by an oracle
bundle `Ctx` of abstract functions; the control flow and data flow of the
creusot functions themselves are translated statement by statement.  Fatal
paths (assert/panic/unimplemented/abort) are modelled by returning `none`. -/

namespace CreusotTraits

/-- Identifiers of logical variables (pearlite `Ident`). -/
abbrev Ident := Nat

/-- Source spans, kept as opaque tags (rustc `Span`). -/
abbrev Span := Nat

/-- Stable item ids (rustc `DefId`). -/
abbrev DefId := Nat

/-- Opaque type representations (rustc `Ty`). -/
abbrev Ty := Nat

/-- Opaque generic-argument lists (rustc `GenericArgsRef`). -/
abbrev GenArgs := Nat

/-- Opaque predicates submitted to the obligation machinery (rustc `Predicate`). -/
abbrev Pred := Nat

/-- Opaque parameter environments (rustc `ParamEnv`). -/
abbrev ParamEnv := Nat

/-- The span placed on terms built without an explicit location (rustc `DUMMY_SP`). -/
def dummySpan : Span := 0

/-- A trait reference: the trait id plus its generic arguments (rustc `TraitRef`). -/
structure TraitRef where
  def_id : DefId
  args : GenArgs
deriving DecidableEq, Repr

/-- Typing environment at the point of resolution (rustc `TypingEnv`);
only its `param_env` projection is consulted by the translated code. -/
structure TypingEnv where
  param_env : ParamEnv
deriving DecidableEq, Repr

/-- Modelled from the spec: the logical term language (pearlite `Term`, which is
not part of src/).  The spec's term-construction interface provides conjunction,
implication, universal quantification, free-variable substitution and
source-location tagging; each node carries its source span. -/
inductive Term where
  | var (x : Ident) (sp : Span)
  | litTrue (sp : Span)
  | conj (l r : Term) (sp : Span)
  | implies (l r : Term) (sp : Span)
  | forallT (x : Ident) (ty : Ty) (body : Term) (sp : Span)
deriving DecidableEq, Repr

/-- Conjunction builder (`Term::conj`); fresh nodes carry the dummy span. -/
def Term.conjD (l r : Term) : Term := Term.conj l r dummySpan

/-- Implication builder (`Term::implies`). -/
def Term.impliesD (l r : Term) : Term := Term.implies l r dummySpan

/-- Universal-quantification builder (`Term::forall`), binding one typed identifier. -/
def Term.forallD (t : Term) (b : Ident × Ty) : Term := Term.forallT b.1 b.2 t dummySpan

/-- Location tagging (`Term::span`): replace the span of the root node. -/
def Term.withSpan : Term → Span → Term
  | Term.var x _, sp => Term.var x sp
  | Term.litTrue _, sp => Term.litTrue sp
  | Term.conj l r _, sp => Term.conj l r sp
  | Term.implies l r _, sp => Term.implies l r sp
  | Term.forallT x ty b _, sp => Term.forallT x ty b sp

/-- Modelled from the spec: free-variable substitution (`Term::subst`), here for
the variable-to-variable substitutions built by `logic_refinement_term`.
Binders shadow: under `forall x` the substitution forgets `x`. -/
def Term.substVars (σ : Ident → Option Ident) : Term → Term
  | Term.var x sp =>
    match σ x with
    | some y => Term.var y sp
    | none => Term.var x sp
  | Term.litTrue sp => Term.litTrue sp
  | Term.conj l r sp => Term.conj (l.substVars σ) (r.substVars σ) sp
  | Term.implies l r sp => Term.implies (l.substVars σ) (r.substVars σ) sp
  | Term.forallT x ty b sp =>
    Term.forallT x ty (b.substVars (fun y => if y = x then none else σ y)) sp

/-- Free identifiers of a term (with multiplicity; used only through membership). -/
def Term.freeVars : Term → List Ident
  | Term.var x _ => [x]
  | Term.litTrue _ => []
  | Term.conj l r _ => l.freeVars ++ r.freeVars
  | Term.implies l r _ => l.freeVars ++ r.freeVars
  | Term.forallT x _ b _ => b.freeVars.filter (fun y => y != x)

/-- Modelled from the spec: a contract is a precondition set and a postcondition
set (pearlite `PreContract`, not part of src/). -/
structure PreContract where
  requires : List Term
  ensures : List Term
deriving DecidableEq, Repr

/-- Modelled from the spec: fold a set of contract clauses into one conjunction. -/
def conjListD : List Term → Term
  | [] => Term.litTrue dummySpan
  | t :: ts => ts.foldl Term.conjD t

/-- Modelled from the spec: conjunction of the precondition set
(`PreContract::requires_conj`). -/
def PreContract.requires_conj (c : PreContract) : Term := conjListD c.requires

/-- Modelled from the spec: conjunction of the postcondition set
(`PreContract::ensures_conj`). -/
def PreContract.ensures_conj (c : PreContract) : Term := conjListD c.ensures

/-- A pre-signature (pearlite `PreSignature`): ordered inputs as
(identifier, span, type) triples, an output type, and a contract. -/
structure PreSignature where
  inputs : List (Ident × Span × Ty)
  output : Ty
  contract : PreContract
deriving DecidableEq, Repr

/-- The identifier standing for the returned value (`name::result()`). -/
def resultIdent : Ident := 0

/-- Selected implementation source (rustc `ImplSource`), keeping the fields the
translated code reads: for `UserDefined`, the impl id and its arguments. -/
inductive ImplSource where
  | UserDefined (impl_def_id : DefId) (args : GenArgs)
  | Param
  | Builtin
deriving DecidableEq, Repr

/-- The leaf definition of an item along an ancestor chain
(`specialization_graph::LeafDef`): the item actually run and its defining node. -/
structure LeafDef where
  item_def_id : DefId
  defining_node : DefId
deriving DecidableEq, Repr

/-- Children of one specialization-graph node (`specialization_graph::Children`):
blanket impls plus non-blanket impls keyed by simplified self type. -/
structure Children where
  blanket_impls : List DefId
  non_blanket_impls : List (Nat × List DefId)
deriving DecidableEq, Repr

/-- The specialization graph of one trait (`specialization_graph::Graph`),
as the finite children map the search walks. -/
structure Graph where
  children : List (DefId × Children)
deriving DecidableEq, Repr

/-- All children of one `Children` record, blanket impls first, then the
non-blanket impls flattened in map order, exactly as `get_children` chains them. -/
def Children.childList (ch : Children) : List DefId :=
  ch.blanket_impls ++ (ch.non_blanket_impls.map Prod.snd).flatten

/-- Look a node up in the children map. -/
def Graph.childrenOf (g : Graph) (n : DefId) : Option Children :=
  (g.children.find? (fun p => p.1 == n)).map Prod.snd

/-- The `get_children` closure of `still_specializable`: children of a node,
empty when the node has no entry (the `def_children` default). -/
def get_children (g : Graph) (n : DefId) : List DefId :=
  match g.childrenOf n with
  | none => []
  | some ch => ch.childList

/-- Every child id occurring anywhere in the children map. -/
def allChildren (g : Graph) : List DefId :=
  (g.children.map (fun p => p.2.childList)).flatten

/-- The result of resolution (`TraitResolved`). -/
inductive TraitResolved where
  | NotATraitItem
  | Instance (def_id : DefId) (args : GenArgs)
  | UnknownFound
  | UnknownNotFound
  | NoInstance
deriving DecidableEq, Repr

/-- A refinement record (`Refinement`): the trait-side reference, the impl-side
reference, and the refinement term. -/
structure Refinement where
  trait_ : DefId × GenArgs
  impl_ : DefId × GenArgs
  refn : Term
deriving DecidableEq, Repr

/-- The result of translating one impl block (`TraitImpl`). -/
structure TraitImpl where
  laws : List DefId
  refinements : List Refinement
deriving DecidableEq, Repr

/-- The oracle bundle standing for `TranslationCtx`/`TyCtxt` and the rustc
facilities the translated functions call.  Item facts, signatures, the
unification/coherence layer and stable hashing are abstract functions; the
creusot control flow below consults them exactly where the source does. -/
structure Ctx where
  is_law : DefId → Bool
  is_pearlite : DefId → Bool
  def_kind_is_fn_like : DefId → Bool
  is_local : DefId → Bool
  is_default : DefId → Bool
  trait_of_item : DefId → Option DefId
  trait_id_of_impl : DefId → Option DefId
  impl_trait_ref : DefId → Option TraitRef
  impl_item_implementor_ids : DefId → List (DefId × DefId)
  sig : DefId → PreSignature
  def_span : DefId → Span
  inst_norm_sig : PreSignature → GenArgs → TypingEnv → PreSignature
  add_type_invariant_spec : PreSignature → DefId → TypingEnv → PreSignature
  typing_env_of : DefId → TypingEnv
  erased_identity_for_item : DefId → GenArgs
  rebase_onto : GenArgs → DefId → GenArgs → GenArgs
  translate_args : ParamEnv → DefId → GenArgs → DefId → GenArgs
  erase_regions : GenArgs → GenArgs
  from_method_args : DefId → GenArgs → GenArgs
  normalize_trait_ref : TypingEnv → TraitRef → TraitRef
  codegen_select : TypingEnv → TraitRef → Option ImplSource
  orphan_check_remote : ParamEnv → TraitRef → Bool
  unifies : ParamEnv → DefId → TraitRef → Bool
  specialization_graph : DefId → Option Graph
  leaf_def : DefId → DefId → DefId → Option LeafDef
  type_at0_closure : GenArgs → Option (DefId × GenArgs)
  extra_spec_predicates : DefId → Option (GenArgs → List Pred)
  predicates_ok : List Pred → ParamEnv → Bool
  param_env_of_item : DefId → ParamEnv
  stable_hash_key : DefId → Nat
  very_stable_hash : DefId → DefId → Nat

/-- Does a graph node itself provide the item
(`tcx.impl_item_implementor_ids(node).get(&trait_item_def_id).is_some()`)? -/
def implementsItem (ctx : Ctx) (node trait_item : DefId) : Bool :=
  ((ctx.impl_item_implementor_ids node).find? (fun p => p.1 == trait_item)).isSome

/-- The `to_opt` helper of `TraitResolved`: collapse a resolution to an optional
concrete target, given the originally named item and substitution. -/
def TraitResolved.to_opt (r : TraitResolved) (did : DefId) (substs : GenArgs) :
    Option (DefId × GenArgs) :=
  match r with
  | TraitResolved.Instance did2 substs2 => some (did2, substs2)
  | TraitResolved.NotATraitItem => some (did, substs)
  | TraitResolved.UnknownFound => some (did, substs)
  | _ => none

/-- Insert into a list kept sorted by a numeric key, before equal keys
(the stable sorts `to_sorted` / `sort_by_cached_key` are modelled by stable
insertion sort). -/
def insertSorted (key : α → Nat) (x : α) : List α → List α
  | [] => [x]
  | y :: ys => if key x ≤ key y then x :: y :: ys else y :: insertSorted key x ys

/-- Stable insertion sort by a numeric key. -/
def insSortBy (key : α → Nat) : List α → List α
  | [] => []
  | x :: xs => insertSorted key x (insSortBy key xs)

/-- The positional correspondence of `logic_refinement_term`: zip the two
signatures' inputs and take the trait-side identifier with the impl-side type;
these are the quantified shared parameters (the `args` vector). -/
def sharedParams (trait_sig impl_sig : PreSignature) : List (Ident × Ty) :=
  (trait_sig.inputs.zip impl_sig.inputs).map (fun p => (p.1.1, p.2.2.2))

/-- The substitution of `logic_refinement_term`: each zipped impl-side parameter
identifier is mapped to the trait-side identifier of its pair (the `subst`
hash map, built by insertion so that a later pair shadows an earlier one). -/
def sharedSubst (trait_sig impl_sig : PreSignature) : Ident → Option Ident :=
  (trait_sig.inputs.zip impl_sig.inputs).foldl
    (fun m p => fun x => if x = p.2.1 then some p.1.1 else m x) (fun _ => none)

/-- First phase of `logic_refinement_term` (lines 126-138): instantiate and
normalize the trait item's signature at the rebased substitution, take the impl
item's signature as-is, and unless the impl item is pearlite inject the
type-invariant conjuncts into both contracts. -/
def refinement_sigs (ctx : Ctx) (impl_item_id trait_item_id : DefId)
    (refn_subst : GenArgs) : PreSignature × PreSignature :=
  let typing_env := ctx.typing_env_of impl_item_id
  let trait_sig := ctx.inst_norm_sig (ctx.sig trait_item_id) refn_subst typing_env
  let impl_sig := ctx.sig impl_item_id
  if ctx.is_pearlite impl_item_id then (trait_sig, impl_sig)
  else
    (ctx.add_type_invariant_spec trait_sig trait_item_id typing_env,
     ctx.add_type_invariant_spec impl_sig impl_item_id typing_env)

/-- Second phase of `logic_refinement_term` (lines 140-164): build the shared
parameters and the renaming substitution from the positional zip, substitute the
impl contract, and assemble
`forall args. trait_pre ==> (impl_pre /\ forall result. impl_post ==> trait_post)`,
tagging each introduced quantifier with the impl item's span. -/
def refinement_term_of_sigs (ctx : Ctx) (impl_item_id : DefId)
    (trait_sig impl_sig : PreSignature) : Term :=
  let sp := ctx.def_span impl_item_id
  let args := sharedParams trait_sig impl_sig
  let subst := sharedSubst trait_sig impl_sig
  let impl_precond := (impl_sig.contract.requires_conj).substVars subst
  let trait_precond := trait_sig.contract.requires_conj
  let impl_postcond := (impl_sig.contract.ensures_conj).substVars subst
  let trait_postcond := trait_sig.contract.ensures_conj
  let retty := impl_sig.output
  let post_refn :=
    ((impl_postcond.impliesD trait_postcond).forallD (resultIdent, retty)).withSpan sp
  let refn := trait_precond.impliesD (impl_precond.conjD post_refn)
  args.foldr (fun r acc => (acc.forallD r).withSpan sp) refn

/-- `logic_refinement_term` (lines 120-165): the refinement proof obligation for
one (impl item, trait item) pairing at the rebased substitution. -/
def logic_refinement_term (ctx : Ctx) (impl_item_id trait_item_id : DefId)
    (refn_subst : GenArgs) : Term :=
  let sigs := refinement_sigs ctx impl_item_id trait_item_id refn_subst
  refinement_term_of_sigs ctx impl_item_id sigs.1 sigs.2

/-- The loop body of `translate_impl` (lines 70-114) over the sorted implementor
map: collect law impl items, skip non-local impls and non-fn-like trait items,
check the extra extern-spec obligations (`none` models the fatal
`crash_and_error` on a fulfillment failure), and append the refinement record. -/
def translateLoop (ctx : Ctx) (impl_id : DefId) (trait_ref_args : GenArgs) :
    List (DefId × DefId) → List DefId → List Refinement → Option TraitImpl
  | [], laws, refns => some ⟨laws, refns⟩
  | (trait_item, impl_item) :: rest, laws, refns =>
    let laws := if ctx.is_law trait_item then laws ++ [impl_item] else laws
    if !ctx.is_local impl_id then translateLoop ctx impl_id trait_ref_args rest laws refns
    else
      let subst := ctx.erased_identity_for_item impl_item
      let refn_subst := ctx.rebase_onto subst impl_id trait_ref_args
      if !ctx.def_kind_is_fn_like trait_item then
        translateLoop ctx impl_id trait_ref_args rest laws refns
      else
        let predicates :=
          match ctx.extra_spec_predicates trait_item with
          | some f => f refn_subst
          | none => []
        if !ctx.predicates_ok predicates (ctx.param_env_of_item impl_item) then none
        else
          let refn := logic_refinement_term ctx impl_item trait_item refn_subst
          translateLoop ctx impl_id trait_ref_args rest laws
            (refns ++ [⟨(trait_item, refn_subst), (impl_item, subst), refn⟩])

/-- `translate_impl` (lines 57-117) after reading the implementor map: assert the
id is a trait impl, read its identity-instantiated trait reference, sort the map
by the stable hash of the key and then by the very stable hash of the
(trait item, impl item) pair, and run the translation loop. -/
def translate_impl_with (ctx : Ctx) (impl_id : DefId)
    (implementor_map : List (DefId × DefId)) : Option TraitImpl :=
  match ctx.trait_id_of_impl impl_id, ctx.impl_trait_ref impl_id with
  | some _, some trait_ref =>
    let m1 := insSortBy (fun p => ctx.stable_hash_key p.1) implementor_map
    let m2 := insSortBy (fun p => ctx.very_stable_hash p.1 p.2) m1
    translateLoop ctx impl_id trait_ref.args m2 [] []
  | _, _ => none

/-- `translate_impl`, reading the implementor map from the context. -/
def translate_impl (ctx : Ctx) (impl_id : DefId) : Option TraitImpl :=
  translate_impl_with ctx impl_id (ctx.impl_item_implementor_ids impl_id)

/-- The descendant search of `still_specializable` (lines 407-431), instrumented
with the list of visited (popped) nodes.  Trial unification of a node against
the target reference inside a forked inference context is the `unifies` oracle.
The stack is kept top-first (`Vec::pop` takes the last element, `extend` appends;
reversing the pushed children preserves the traversal order).  The fuel argument
makes the loop total; `none` means the fuel ran out. -/
def searchLoop (ctx : Ctx) (g : Graph) (pe : ParamEnv) (item : DefId)
    (tr : TraitRef) : Nat → List DefId → List DefId → Option (Bool × List DefId)
  | 0, _, _ => none
  | _ + 1, [], visited => some (false, visited)
  | fuel + 1, node :: rest, visited =>
    if ctx.unifies pe node tr then
      if implementsItem ctx node item then some (true, visited ++ [node])
      else
        searchLoop ctx g pe item tr fuel ((get_children g node).reverse ++ rest)
          (visited ++ [node])
    else searchLoop ctx g pe item tr fuel rest (visited ++ [node])

/-- Fuel sufficient for the search on a forest-shaped children map: every node
is popped at most once, so the number of iterations is bounded by the number of
child occurrences plus the final empty-stack step. -/
def graphFuel (g : Graph) : Nat := (allChildren g).length + 2

/-- Run the descendant search from the children of `start` with the canonical
fuel and an empty visited trace. -/
def still_spec_search (ctx : Ctx) (g : Graph) (pe : ParamEnv) (item : DefId)
    (tr : TraitRef) (start : DefId) : Option (Bool × List DefId) :=
  searchLoop ctx g pe item tr (graphFuel g) ((get_children g start).reverse) []

/-- Tail of `still_specializable` once the start node is known (lines 391-433):
if a downstream or cousin crate may legally supply an overlapping impl, report
specializable; otherwise search the descendants of the start node. -/
def specializableFrom (ctx : Ctx) (g : Graph) (pe : ParamEnv) (item : DefId)
    (tr : TraitRef) (start : DefId) : Option Bool :=
  if ctx.orphan_check_remote pe tr then some true
  else (still_spec_search ctx g pe item tr start).map Prod.fst

/-- `still_specializable` (lines 357-434).  `none` models the fatal paths (the
specialization-graph query failing, or the leaf-definition unwrap panicking).
With a user-defined source, find the leaf definition of the item: if neither the
leaf item nor its defining node is marked default, resolution is frozen (`some
false`) before any coherence or graph work; otherwise search from the defining
node.  Without a source, search from the trait's own root id. -/
def still_specializable (ctx : Ctx) (pe : ParamEnv) (trait_item_def_id : DefId)
    (trait_ref : TraitRef) (source : Option ImplSource) : Option Bool :=
  match ctx.specialization_graph trait_ref.def_id with
  | none => none
  | some graph =>
    match source with
    | some (ImplSource.UserDefined ud_impl _) =>
      match ctx.leaf_def trait_ref.def_id ud_impl trait_item_def_id with
      | none => none
      | some leaf =>
        if !(ctx.is_default leaf.item_def_id || ctx.is_default leaf.defining_node) then
          some false
        else specializableFrom ctx graph pe trait_item_def_id trait_ref leaf.defining_node
    | _ => specializableFrom ctx graph pe trait_item_def_id trait_ref trait_ref.def_id

/-- `TraitResolved::resolve_item` (lines 211-284).  `none` models the fatal
paths: the graph query aborting, the leaf-definition panic, and the
`unimplemented!()` for a builtin source whose receiver is not a closure. -/
def resolve_item (ctx : Ctx) (typing_env : TypingEnv) (trait_item_def_id : DefId)
    (substs : GenArgs) : Option TraitResolved :=
  match ctx.trait_of_item trait_item_def_id with
  | none => some TraitResolved.NotATraitItem
  | some did =>
    let trait_ref :=
      ctx.normalize_trait_ref typing_env ⟨did, ctx.from_method_args did substs⟩
    match ctx.codegen_select typing_env trait_ref with
    | none =>
      match still_specializable ctx typing_env.param_env trait_item_def_id trait_ref
          none with
      | none => none
      | some true => some TraitResolved.UnknownNotFound
      | some false => some TraitResolved.NoInstance
    | some (ImplSource.UserDefined impl_def_id impl_args) =>
      match still_specializable ctx typing_env.param_env trait_item_def_id trait_ref
          (some (ImplSource.UserDefined impl_def_id impl_args)) with
      | none => none
      | some true => some TraitResolved.UnknownFound
      | some false =>
        match ctx.leaf_def trait_ref.def_id impl_def_id trait_item_def_id with
        | none => none
        | some leaf =>
          let args := ctx.translate_args typing_env.param_env impl_def_id impl_args
            leaf.defining_node
          let substs2 := ctx.rebase_onto substs trait_ref.def_id args
          let leaf_substs := ctx.erase_regions substs2
          some (TraitResolved.Instance leaf.item_def_id leaf_substs)
    | some ImplSource.Param => some TraitResolved.UnknownFound
    | some ImplSource.Builtin =>
      match ctx.type_at0_closure substs with
      | some pr => some (TraitResolved.Instance pr.1 pr.2)
      | none => none

/-- Reference formula of the specification, quantifiers written by explicit
recursion so that the first signature parameter ends up outermost. -/
def specForalls (sp : Span) : List (Ident × Ty) → Term → Term
  | [], body => body
  | r :: rest, body => ((specForalls sp rest body).forallD r).withSpan sp

/-- Reference formula of the specification:
`forall args. pI ==> (pM /\ forall result. qM ==> qI)`. -/
def specRefinementFormula (sp : Span) (args : List (Ident × Ty))
    (pI pM qM qI : Term) (retty : Ty) : Term :=
  specForalls sp args
    (pI.impliesD
      (pM.conjD (((qM.impliesD qI).forallD (resultIdent, retty)).withSpan sp)))

/-- The identifiers of a signature's parameters, in order. -/
def inputIds (s : PreSignature) : List Ident := s.inputs.map (fun p => p.1)

/-- The maximal chain of universal quantifiers at the root of a term. -/
def Term.leadingForalls : Term → List (Ident × Ty)
  | Term.forallT x ty b _ => (x, ty) :: b.leadingForalls
  | _ => []

/-- How `resolve_item` maps the no-candidate oracle verdict to a result:
specializable becomes `UnknownNotFound`, otherwise `NoInstance`; an aborted
oracle aborts resolution. -/
def resolveOfOracle : Option Bool → Option TraitResolved
  | none => none
  | some true => some TraitResolved.UnknownNotFound
  | some false => some TraitResolved.NoInstance

/-- The search completed within fuel and its visited trace has no duplicates. -/
def searchOk : Option (Bool × List DefId) → Prop
  | none => False
  | some r => r.2.Nodup

/-- The search returned false and no visited node both unifies with the target
reference and itself implements the item. -/
def noHitTrace (ctx : Ctx) (pe : ParamEnv) (item : DefId) (tr : TraitRef) :
    Option (Bool × List DefId) → Prop
  | some (false, vis) =>
    ∀ n ∈ vis, ¬(ctx.unifies pe n tr = true ∧ implementsItem ctx n item = true)
  | _ => False

/-- The trait-item ids of the refinements of a translation result. -/
def refTraitIds (o : Option TraitImpl) : Option (List DefId) :=
  o.map (fun ti => ti.refinements.map (fun r => r.trait_.1))

/-- A default signature for items whose signature is irrelevant to an example. -/
def defaultSig : PreSignature := ⟨[], 0, ⟨[], []⟩⟩

/-- A neutral oracle bundle for concrete examples: every rebasing/normalization
function is the identity, no item is a law, every impl is local, selection
fails, the orphan check denies remote impls, and the graph is empty. -/
def baseCtx : Ctx where
  is_law := fun _ => false
  is_pearlite := fun _ => true
  def_kind_is_fn_like := fun _ => true
  is_local := fun _ => true
  is_default := fun _ => false
  trait_of_item := fun _ => none
  trait_id_of_impl := fun _ => none
  impl_trait_ref := fun _ => none
  impl_item_implementor_ids := fun _ => []
  sig := fun _ => defaultSig
  def_span := fun _ => 0
  inst_norm_sig := fun s _ _ => s
  add_type_invariant_spec := fun s _ _ => s
  typing_env_of := fun _ => ⟨0⟩
  erased_identity_for_item := fun d => d
  rebase_onto := fun s _ _ => s
  translate_args := fun _ _ s _ => s
  erase_regions := fun s => s
  from_method_args := fun _ s => s
  normalize_trait_ref := fun _ tr => tr
  codegen_select := fun _ _ => none
  orphan_check_remote := fun _ _ => false
  unifies := fun _ _ _ => false
  specialization_graph := fun _ => some ⟨[]⟩
  leaf_def := fun _ _ _ => none
  type_at0_closure := fun _ => none
  extra_spec_predicates := fun _ => none
  predicates_ok := fun _ _ => true
  param_env_of_item := fun _ => 0
  stable_hash_key := fun d => d
  very_stable_hash := fun a b => 100 * a + b

/-- Example trait-item signature: one parameter `1 : ty 5`, result type `5`,
precondition `var 1`, postcondition `var result`. -/
def traitSigEx : PreSignature :=
  ⟨[(1, 0, 5)], 5, ⟨[Term.var 1 dummySpan], [Term.var resultIdent dummySpan]⟩⟩

/-- Example impl-item signature: one parameter `2 : ty 5`, result type `5`,
precondition `var 2`, postcondition `var result`. -/
def implSigEx : PreSignature :=
  ⟨[(2, 0, 5)], 5, ⟨[Term.var 2 dummySpan], [Term.var resultIdent dummySpan]⟩⟩

/-- Context for the refinement-term examples: trait item 10 and impl item 20
with the example signatures, impl items located at span 3. -/
def c1ctx : Ctx :=
  { baseCtx with
    sig := fun d => if d = 10 then traitSigEx else if d = 20 then implSigEx else defaultSig
    def_span := fun _ => 3 }

/-- Context exercising the law path of `translate_impl`: impl block 100 of trait
1, implementor map pairing law trait item 10 with impl item 11. -/
def c2ctx : Ctx :=
  { baseCtx with
    trait_id_of_impl := fun d => if d = 100 then some 1 else none
    impl_trait_ref := fun d => if d = 100 then some ⟨1, 9⟩ else none
    impl_item_implementor_ids := fun d => if d = 100 then [(10, 11)] else []
    is_law := fun d => d = 10 }

/-- Specialization graph for the resolution examples: the trait root 1 has the
single child impl 2, which has no children of its own. -/
def c3g : Graph := ⟨[(1, ⟨[2], []⟩)]⟩

/-- Context where selection fails for trait item 5 of trait 1, the orphan check
denies remote impls, and the only graph child (impl 2) unifies with the target
reference but does not itself implement item 5. -/
def c3ctx : Ctx :=
  { baseCtx with
    trait_of_item := fun d => if d = 5 then some 1 else none
    specialization_graph := fun _ => some c3g
    unifies := fun _ n _ => n = 2 }

/-- Context where selection finds the user-defined impl 30 for trait item 5 of
trait 1 and the leaf definition (item 31 defined in node 30) is not default. -/
def c4ctx : Ctx :=
  { baseCtx with
    trait_of_item := fun d => if d = 5 then some 1 else none
    codegen_select := fun _ tr => if tr.def_id = 1 then some (ImplSource.UserDefined 30 3) else none
    leaf_def := fun t i m => if t = 1 && i = 30 && m = 5 then some ⟨31, 30⟩ else none }

/-- The `c4ctx` oracle with the orphan check and trial unification flipped to
always-true: the frozen-leaf verdict may not depend on them. -/
def c4ctxFlipped : Ctx :=
  { c4ctx with
    orphan_check_remote := fun _ _ => true
    unifies := fun _ _ _ => true }

/-- Context where no candidate is selectable for trait item 5 of trait 1. -/
def c5ctx : Ctx :=
  { baseCtx with trait_of_item := fun d => if d = 5 then some 1 else none }

/-- Context for the determinism example: impl block 100 of trait 1, whose
implementor map is enumerated as `[(10, 11), (12, 13)]`. -/
def c7ctx : Ctx :=
  { baseCtx with
    trait_id_of_impl := fun d => if d = 100 then some 1 else none
    impl_trait_ref := fun d => if d = 100 then some ⟨1, 9⟩ else none
    impl_item_implementor_ids := fun d => if d = 100 then [(10, 11), (12, 13)] else []
    is_law := fun d => d = 10 }

/-- Specialization graph for the termination example: node 1 has a blanket
child 2 and a non-blanket child 3. -/
def c9g : Graph := ⟨[(1, ⟨[2], [(0, [3])]⟩)]⟩

/-- A rank function witnessing that `c9g` is acyclic: children have smaller rank. -/
def c9rank (n : DefId) : Nat := 10 - n

/-- Impl-item signature with a surplus second parameter `3` that the trait
signature does not match, mentioned by the impl precondition. -/
def implSigSurplus : PreSignature :=
  ⟨[(2, 0, 5), (3, 0, 6)], 5, ⟨[Term.var 3 dummySpan], []⟩⟩

/-- Context for the zip-truncation example: trait item 10 has one parameter,
impl item 20 has two, the second occurring in the impl precondition. -/
def c10ctx : Ctx :=
  { baseCtx with
    sig := fun d => if d = 10 then traitSigEx else if d = 20 then implSigSurplus else defaultSig
    def_span := fun _ => 3 }

/-- Trait-item signature with one parameter and an empty contract. -/
def traitSigNoContract : PreSignature := ⟨[(1, 0, 5)], 5, ⟨[], []⟩⟩

/-- Impl-item signature with one parameter and an empty contract. -/
def implSigNoContract : PreSignature := ⟨[(2, 0, 5)], 5, ⟨[], []⟩⟩

/-- Context pairing trait item 10 and impl item 20 whose contracts are empty,
although the signatures introduce a shared parameter. -/
def c6ctx : Ctx :=
  { baseCtx with
    sig := fun d =>
      if d = 10 then traitSigNoContract
      else if d = 20 then implSigNoContract else defaultSig }

/-- Invariant of the descendant search relative to a rank function witnessing
acyclicity: the stack and visited trace are jointly duplicate-free, every node
in them is a child of the start node or of an already-visited node, and every
node in them has rank below the start node's. -/
def SearchInv (g : Graph) (rk : DefId → Nat) (start : DefId)
    (stack visited : List DefId) : Prop :=
  (stack ++ visited).Nodup ∧
  (∀ x ∈ stack ++ visited, ∃ p, (p = start ∨ p ∈ visited) ∧ x ∈ get_children g p) ∧
  (∀ x ∈ stack ++ visited, rk x < rk start)

/-! Lemmas about terms, free variables and the shared substitution. -/

@[simp]
theorem freeVars_conjD (a b : Term) : (a.conjD b).freeVars = a.freeVars ++ b.freeVars := rfl

@[simp]
theorem freeVars_impliesD (a b : Term) :
    (a.impliesD b).freeVars = a.freeVars ++ b.freeVars := rfl

@[simp]
theorem freeVars_forallD (t : Term) (b : Ident × Ty) :
    (t.forallD b).freeVars = t.freeVars.filter (fun y => y != b.1) := rfl

@[simp]
theorem freeVars_withSpan (t : Term) (sp : Span) :
    (t.withSpan sp).freeVars = t.freeVars := by
  cases t <;> rfl

theorem specForalls_eq_foldr (sp : Span) (args : List (Ident × Ty)) (t : Term) :
    specForalls sp args t = args.foldr (fun r acc => (acc.forallD r).withSpan sp) t := by
  induction args with
  | nil => rfl
  | cons r rest ih => simp [specForalls, ih]

/-! Claim C1. -/

/-- C1: for a paired interface and implementation item whose implementation item
is pure-spec (pearlite), so that no type-invariant conjuncts are injected,
`logic_refinement_term` produces exactly the formula
`forall args. P_i ==> (P_m /\ forall result. Q_m ==> Q_i)`, where the
implementation contract is renamed onto the shared (trait-side) parameter
identifiers, and the quantifiers are nested with the first signature parameter
outermost. -/
theorem claim1_refinement_term_shape (ctx : Ctx) (i t : DefId) (s : GenArgs)
    (h : ctx.is_pearlite i = true) :
    logic_refinement_term ctx i t s =
      specRefinementFormula (ctx.def_span i)
        (sharedParams (ctx.inst_norm_sig (ctx.sig t) s (ctx.typing_env_of i)) (ctx.sig i))
        ((ctx.inst_norm_sig (ctx.sig t) s (ctx.typing_env_of i)).contract.requires_conj)
        (((ctx.sig i).contract.requires_conj).substVars
          (sharedSubst (ctx.inst_norm_sig (ctx.sig t) s (ctx.typing_env_of i)) (ctx.sig i)))
        (((ctx.sig i).contract.ensures_conj).substVars
          (sharedSubst (ctx.inst_norm_sig (ctx.sig t) s (ctx.typing_env_of i)) (ctx.sig i)))
        ((ctx.inst_norm_sig (ctx.sig t) s (ctx.typing_env_of i)).contract.ensures_conj)
        ((ctx.sig i).output) := by
  simp only [logic_refinement_term, refinement_sigs, refinement_term_of_sigs, h,
    if_true, specRefinementFormula, specForalls_eq_foldr]

/-- Witness for C1 at the concrete context `c1ctx`. -/
theorem claim1_witness :
    c1ctx.is_pearlite 20 = true ∧
      logic_refinement_term c1ctx 20 10 0 =
        specRefinementFormula (c1ctx.def_span 20)
          (sharedParams (c1ctx.inst_norm_sig (c1ctx.sig 10) 0 (c1ctx.typing_env_of 20))
            (c1ctx.sig 20))
          ((c1ctx.inst_norm_sig (c1ctx.sig 10) 0 (c1ctx.typing_env_of 20)).contract.requires_conj)
          (((c1ctx.sig 20).contract.requires_conj).substVars
            (sharedSubst (c1ctx.inst_norm_sig (c1ctx.sig 10) 0 (c1ctx.typing_env_of 20))
              (c1ctx.sig 20)))
          (((c1ctx.sig 20).contract.ensures_conj).substVars
            (sharedSubst (c1ctx.inst_norm_sig (c1ctx.sig 10) 0 (c1ctx.typing_env_of 20))
              (c1ctx.sig 20)))
          ((c1ctx.inst_norm_sig (c1ctx.sig 10) 0 (c1ctx.typing_env_of 20)).contract.ensures_conj)
          ((c1ctx.sig 20).output) :=
  ⟨rfl, claim1_refinement_term_shape c1ctx 20 10 0 rfl⟩

/-! Claim C5. -/

/-- C5: when the item is a trait item but no candidate implementation is
selectable, the result of `resolve_item` is exactly the image of the
specializability oracle consulted with no source: `UnknownNotFound` when the
oracle reports still-specializable, `NoInstance` otherwise (and an oracle abort
aborts resolution); no other variant is possible on this path. -/
theorem claim5_no_candidate_dichotomy (ctx : Ctx) (te : TypingEnv)
    (item tid : DefId) (substs : GenArgs) (ntr : TraitRef)
    (h_tr : ctx.trait_of_item item = some tid)
    (h_norm : ctx.normalize_trait_ref te ⟨tid, ctx.from_method_args tid substs⟩ = ntr)
    (h_sel : ctx.codegen_select te ntr = none) :
    resolve_item ctx te item substs =
      resolveOfOracle (still_specializable ctx te.param_env item ntr none) := by
  simp only [resolve_item, h_tr, h_norm, h_sel]
  cases h : still_specializable ctx te.param_env item ntr none with
  | none => rfl
  | some b => cases b <;> rfl

/-- Witness for C5 at the concrete context `c5ctx`. -/
theorem claim5_witness :
    resolve_item c5ctx ⟨0⟩ 5 7 =
      resolveOfOracle (still_specializable c5ctx 0 5 ⟨1, 7⟩ none) :=
  claim5_no_candidate_dichotomy c5ctx ⟨0⟩ 5 1 7 ⟨1, 7⟩ rfl rfl rfl

/-! Claim C8. -/

/-- C8 counterexample: for the `Instance` variant, `to_opt` does not yield the
originally named item and substitution (7, 70); it yields the resolved pair
(5, 50) carried by the variant. -/
theorem claim8_counterexample :
    TraitResolved.to_opt (TraitResolved.Instance 5 50) 7 70 = some (5, 50) ∧
      some ((5 : DefId), (50 : GenArgs)) ≠ some ((7 : DefId), (70 : GenArgs)) := by
  exact ⟨rfl, by decide⟩

/-- C8 as amended: `to_opt` yields the resolved item/substitution carried by the
`Instance` variant, the originally named item/substitution as-is for the
`UnknownFound` and `NotATraitItem` variants, and no target for the
`UnknownNotFound` and `NoInstance` (proven-absent) variants. -/
theorem claim8_to_opt_cases (did i : DefId) (substs s : GenArgs) :
    TraitResolved.to_opt (TraitResolved.Instance i s) did substs = some (i, s) ∧
      TraitResolved.to_opt TraitResolved.NotATraitItem did substs = some (did, substs) ∧
      TraitResolved.to_opt TraitResolved.UnknownFound did substs = some (did, substs) ∧
      TraitResolved.to_opt TraitResolved.UnknownNotFound did substs = none ∧
      TraitResolved.to_opt TraitResolved.NoInstance did substs = none :=
  ⟨rfl, rfl, rfl, rfl, rfl⟩

/-! Claim C4. -/

/-- C4: with a user-defined candidate whose leaf definition of the item is not
overridable (neither the leaf item nor its defining node is marked default),
`still_specializable` returns false for every oracle bundle agreeing on the leaf
lookup and defaultness facts — in particular regardless of the orphan check,
the trial unification and the children map, which are therefore never decisive —
and `resolve_item` consequently returns `Instance` for that call, never
`UnknownFound`. -/
theorem claim4_frozen_leaf (ctx : Ctx) (te : TypingEnv) (item tid ud : DefId)
    (substs uargs : GenArgs) (ntr : TraitRef) (leaf : LeafDef)
    (h_tr : ctx.trait_of_item item = some tid)
    (h_norm : ctx.normalize_trait_ref te ⟨tid, ctx.from_method_args tid substs⟩ = ntr)
    (h_sel : ctx.codegen_select te ntr = some (ImplSource.UserDefined ud uargs))
    (h_graph : (ctx.specialization_graph ntr.def_id).isSome = true)
    (h_leaf : ctx.leaf_def ntr.def_id ud item = some leaf)
    (h_item_fin : ctx.is_default leaf.item_def_id = false)
    (h_node_fin : ctx.is_default leaf.defining_node = false) :
    (∀ c2 : Ctx, c2.leaf_def = ctx.leaf_def → c2.is_default = ctx.is_default →
      (c2.specialization_graph ntr.def_id).isSome = true →
      still_specializable c2 te.param_env item ntr
        (some (ImplSource.UserDefined ud uargs)) = some false) ∧
    resolve_item ctx te item substs =
      some (TraitResolved.Instance leaf.item_def_id
        (ctx.erase_regions (ctx.rebase_onto substs ntr.def_id
          (ctx.translate_args te.param_env ud uargs leaf.defining_node)))) := by
  have key : ∀ c2 : Ctx, c2.leaf_def = ctx.leaf_def → c2.is_default = ctx.is_default →
      (c2.specialization_graph ntr.def_id).isSome = true →
      still_specializable c2 te.param_env item ntr
        (some (ImplSource.UserDefined ud uargs)) = some false := by
    intro c2 hld hdf hg
    rcases Option.isSome_iff_exists.mp hg with ⟨g, hg2⟩
    simp only [still_specializable, hg2, hld, h_leaf, hdf, h_item_fin, h_node_fin,
      Bool.or_self, Bool.not_false, if_true]
  refine ⟨key, ?_⟩
  have hss := key ctx rfl rfl h_graph
  simp only [resolve_item, h_tr, h_norm, h_sel, hss, h_leaf]

/-- Witness for C4 at the concrete context `c4ctx`, instantiating the
oracle-independence conjunct at `c4ctxFlipped`, whose orphan check and trial
unification always succeed. -/
theorem claim4_witness :
    still_specializable c4ctxFlipped 0 5 ⟨1, 7⟩
        (some (ImplSource.UserDefined 30 3)) = some false ∧
      resolve_item c4ctx ⟨0⟩ 5 7 = some (TraitResolved.Instance 31 7) := by
  have h := claim4_frozen_leaf c4ctx ⟨0⟩ 5 1 30 7 3 ⟨1, 7⟩ ⟨31, 30⟩
    rfl rfl rfl rfl rfl rfl rfl
  exact ⟨h.1 c4ctxFlipped rfl rfl rfl, h.2⟩

/-! Lemmas about the stable key sort. -/

theorem insertSorted_perm (key : α → Nat) (x : α) (l : List α) :
    (insertSorted key x l).Perm (x :: l) := by
  induction l with
  | nil => exact List.Perm.refl _
  | cons y ys ih =>
    simp only [insertSorted]
    split
    · exact List.Perm.refl _
    · exact (ih.cons y).trans (List.Perm.swap x y ys)

theorem insSortBy_perm (key : α → Nat) (l : List α) : (insSortBy key l).Perm l := by
  induction l with
  | nil => exact List.Perm.refl _
  | cons x xs ih => exact (insertSorted_perm key x _).trans (ih.cons x)

theorem pairwise_insertSorted (key : α → Nat) (x : α) (l : List α)
    (h : l.Pairwise (fun a b => key a ≤ key b)) :
    (insertSorted key x l).Pairwise (fun a b => key a ≤ key b) := by
  induction l with
  | nil => simp [insertSorted]
  | cons y ys ih =>
    rcases List.pairwise_cons.mp h with ⟨hy, hys⟩
    simp only [insertSorted]
    split
    case isTrue hxy =>
      refine List.pairwise_cons.mpr ⟨?_, h⟩
      intro z hz
      rcases List.mem_cons.mp hz with rfl | hz
      · exact hxy
      · exact le_trans hxy (hy z hz)
    case isFalse hxy =>
      refine List.pairwise_cons.mpr ⟨?_, ih hys⟩
      intro z hz
      have hz2 := (insertSorted_perm key x ys).mem_iff.mp hz
      rcases List.mem_cons.mp hz2 with rfl | hz2
      · omega
      · exact hy z hz2

theorem pairwise_insSortBy (key : α → Nat) (l : List α) :
    (insSortBy key l).Pairwise (fun a b => key a ≤ key b) := by
  induction l with
  | nil => simp [insSortBy]
  | cons x xs ih => exact pairwise_insertSorted key x _ ih

theorem eq_of_perm_of_pairwise_keyInj (key : α → Nat) :
    ∀ (l₁ l₂ : List α), l₁.Perm l₂ →
      l₁.Pairwise (fun a b => key a ≤ key b) →
      l₂.Pairwise (fun a b => key a ≤ key b) →
      (∀ a ∈ l₁, ∀ b ∈ l₁, key a = key b → a = b) → l₁ = l₂ := by
  intro l₁
  induction l₁ with
  | nil =>
    intro l₂ hp _ _ _
    exact (hp.symm.eq_nil).symm
  | cons a t₁ ih =>
    intro l₂ hp hs₁ hs₂ hinj
    cases l₂ with
    | nil => simpa using hp.eq_nil
    | cons b t₂ =>
      have hab : a = b := by
        have hbmem : b ∈ a :: t₁ := hp.mem_iff.mpr (List.mem_cons_self b t₂)
        rcases List.mem_cons.mp hbmem with rfl | hb
        · rfl
        · have hamem : a ∈ b :: t₂ := hp.mem_iff.mp (List.mem_cons_self a t₁)
          rcases List.mem_cons.mp hamem with h1 | ha
          · exact h1
          · have h1 : key a ≤ key b := (List.pairwise_cons.mp hs₁).1 b hb
            have h2 : key b ≤ key a := (List.pairwise_cons.mp hs₂).1 a ha
            exact hinj a (List.mem_cons_self a t₁) b (List.mem_cons.mpr (Or.inr hb))
              (le_antisymm h1 h2)
      subst hab
      have ht : t₁.Perm t₂ := hp.cons_inv
      have hrec := ih t₂ ht (List.pairwise_cons.mp hs₁).2 (List.pairwise_cons.mp hs₂).2
        (fun x hx y hy hxy =>
          hinj x (List.mem_cons.mpr (Or.inr hx)) y (List.mem_cons.mpr (Or.inr hy)) hxy)
      rw [hrec]

/-! Lemmas about the translation loop. -/

theorem translateLoop_laws_subset (ctx : Ctx) (impl_id : DefId) (a : GenArgs) :
    ∀ (l : List (DefId × DefId)) (laws : List DefId) (refns : List Refinement)
      (ti : TraitImpl), translateLoop ctx impl_id a l laws refns = some ti →
      ∀ x ∈ laws, x ∈ ti.laws := by
  intro l
  induction l with
  | nil =>
    intro laws refns ti h x hx
    simp only [translateLoop, Option.some.injEq] at h
    subst h
    exact hx
  | cons p rest ih =>
    obtain ⟨t, im⟩ := p
    intro laws refns ti h x hx
    have hmem : x ∈ (if ctx.is_law t then laws ++ [im] else laws) := by
      split
      · exact List.mem_append_left _ hx
      · exact hx
    simp only [translateLoop] at h
    split at h
    · exact ih _ _ _ h x hmem
    · split at h
      · exact ih _ _ _ h x hmem
      · split at h
        · exact Option.noConfusion h
        · exact ih _ _ _ h x hmem

theorem translateLoop_law_mem (ctx : Ctx) (impl_id : DefId) (a : GenArgs)
    (t im : DefId) (h_law : ctx.is_law t = true) :
    ∀ (l : List (DefId × DefId)) (laws : List DefId) (refns : List Refinement)
      (ti : TraitImpl), (t, im) ∈ l →
      translateLoop ctx impl_id a l laws refns = some ti → im ∈ ti.laws := by
  intro l
  induction l with
  | nil =>
    intro laws refns ti hmem _
    exact absurd hmem (List.not_mem_nil _)
  | cons p rest ih =>
    obtain ⟨t2, im2⟩ := p
    intro laws refns ti hmem h
    rcases List.mem_cons.mp hmem with heq | hmem2
    · have h1 : t = t2 := congrArg Prod.fst heq
      have h2 : im = im2 := congrArg Prod.snd heq
      subst h1
      subst h2
      simp only [translateLoop, h_law, if_true] at h
      have hin : im ∈ laws ++ [im] := List.mem_append_right _ (List.mem_cons_self im [])
      split at h
      · exact translateLoop_laws_subset ctx impl_id a rest _ _ ti h im hin
      · split at h
        · exact translateLoop_laws_subset ctx impl_id a rest _ _ ti h im hin
        · split at h
          · exact Option.noConfusion h
          · exact translateLoop_laws_subset ctx impl_id a rest _ _ ti h im hin
    · simp only [translateLoop] at h
      split at h
      · exact ih _ _ _ hmem2 h
      · split at h
        · exact ih _ _ _ hmem2 h
        · split at h
          · exact Option.noConfusion h
          · exact ih _ _ _ hmem2 h

theorem translateLoop_external_refns (ctx : Ctx) (impl_id : DefId) (a : GenArgs)
    (h_loc : ctx.is_local impl_id = false) :
    ∀ (l : List (DefId × DefId)) (laws : List DefId) (refns : List Refinement)
      (ti : TraitImpl), translateLoop ctx impl_id a l laws refns = some ti →
      ti.refinements = refns := by
  intro l
  induction l with
  | nil =>
    intro laws refns ti h
    simp only [translateLoop, Option.some.injEq] at h
    subst h
    rfl
  | cons p rest ih =>
    obtain ⟨t2, im2⟩ := p
    intro laws refns ti h
    simp only [translateLoop, h_loc, Bool.not_false, if_true] at h
    exact ih _ _ _ h

/-! Claim C2. -/

/-- C2 counterexample: in the local impl block 100, the implementation item 11
paired with the law interface item 10 is recorded in `laws`, but — contrary to
the claim — `translate_impl` also produces a Refinement for that very pairing
(whose interface-side item id is the law item 10): there is no skip after the
law bookkeeping for fn-like items of local impls. -/
theorem claim2_counterexample :
    c2ctx.is_law 10 = true ∧
      (translate_impl c2ctx 100).map TraitImpl.laws = some [11] ∧
      refTraitIds (translate_impl c2ctx 100) = some [10] := by
  exact ⟨rfl, by decide, by decide⟩

/-- C2 as amended: for every implementation item paired with a law interface
item, `translate_impl` records the implementation item id in `laws` regardless
of whether the implementation is local or external; for an external (non-local)
implementation no Refinement at all is produced, but for a local implementation
a fn-like law pairing yields a Refinement like any other item (the part of the
claim that no Refinement is ever produced for a law pairing is what fails). -/
theorem claim2_laws_passthrough (ctx : Ctx) (impl_id t im : DefId) (ti : TraitImpl)
    (h_mem : (t, im) ∈ ctx.impl_item_implementor_ids impl_id)
    (h_law : ctx.is_law t = true)
    (h_res : translate_impl ctx impl_id = some ti) :
    im ∈ ti.laws ∧ (ctx.is_local impl_id = false → ti.refinements = []) := by
  unfold translate_impl translate_impl_with at h_res
  cases h1 : ctx.trait_id_of_impl impl_id with
  | none => rw [h1] at h_res; exact Option.noConfusion h_res
  | some tid =>
    cases h2 : ctx.impl_trait_ref impl_id with
    | none => rw [h1, h2] at h_res; exact Option.noConfusion h_res
    | some tr =>
      rw [h1, h2] at h_res
      have hmem2 : (t, im) ∈
          insSortBy (fun p => ctx.very_stable_hash p.1 p.2)
            (insSortBy (fun p => ctx.stable_hash_key p.1)
              (ctx.impl_item_implementor_ids impl_id)) :=
        ((insSortBy_perm _ _).trans (insSortBy_perm _ _)).mem_iff.mpr h_mem
      constructor
      · exact translateLoop_law_mem ctx impl_id tr.args t im h_law _ _ _ _ hmem2 h_res
      · intro hloc
        exact translateLoop_external_refns ctx impl_id tr.args hloc _ _ _ _ h_res

/-- Witness for C2 as amended at the concrete context `c2ctx`. -/
theorem claim2_witness :
    11 ∈ ((translate_impl c2ctx 100).getD ⟨[], []⟩).laws ∧
      (c2ctx.is_local 100 = false →
        ((translate_impl c2ctx 100).getD ⟨[], []⟩).refinements = []) :=
  claim2_laws_passthrough c2ctx 100 10 11 ((translate_impl c2ctx 100).getD ⟨[], []⟩)
    (by decide) rfl (by decide)

/-! Claim C7. -/

/-- C7: the refinement output of `translate_impl` is a deterministic function of
the implementor map's contents ordered by the stable content hash of each
(interface item, implementation item) pair: provided that hash does not collide
on the map's entries, replacing the map by any permutation of it (any other
transient enumeration order) yields the identical `TraitImpl`, laws and
refinement list order included. -/
theorem claim7_order_determinism (ctx : Ctx) (impl_id : DefId)
    (m₁ m₂ : List (DefId × DefId))
    (h_m : m₁ = ctx.impl_item_implementor_ids impl_id)
    (h_perm : m₁.Perm m₂)
    (h_inj : ∀ p ∈ m₁, ∀ q ∈ m₁,
      ctx.very_stable_hash p.1 p.2 = ctx.very_stable_hash q.1 q.2 → p = q) :
    translate_impl ctx impl_id = translate_impl_with ctx impl_id m₂ := by
  have key : insSortBy (fun p => ctx.very_stable_hash p.1 p.2)
      (insSortBy (fun p => ctx.stable_hash_key p.1) m₁) =
      insSortBy (fun p => ctx.very_stable_hash p.1 p.2)
        (insSortBy (fun p => ctx.stable_hash_key p.1) m₂) := by
    have hp : (insSortBy (fun p => ctx.very_stable_hash p.1 p.2)
        (insSortBy (fun p => ctx.stable_hash_key p.1) m₁)).Perm
        (insSortBy (fun p => ctx.very_stable_hash p.1 p.2)
          (insSortBy (fun p => ctx.stable_hash_key p.1) m₂)) :=
      (((insSortBy_perm _ _).trans (insSortBy_perm _ _)).trans h_perm).trans
        (((insSortBy_perm _ _).trans (insSortBy_perm _ _)).symm)
    refine eq_of_perm_of_pairwise_keyInj (fun p => ctx.very_stable_hash p.1 p.2) _ _ hp
      (pairwise_insSortBy _ _) (pairwise_insSortBy _ _) ?_
    intro a ha b hb hk
    exact h_inj a (((insSortBy_perm _ _).trans (insSortBy_perm _ _)).mem_iff.mp ha)
      b (((insSortBy_perm _ _).trans (insSortBy_perm _ _)).mem_iff.mp hb) hk
  unfold translate_impl translate_impl_with
  rw [← h_m]
  simp only [key]

/-- Witness for C7 at the concrete context `c7ctx` and the reversed enumeration
of its implementor map. -/
theorem claim7_witness :
    translate_impl c7ctx 100 = translate_impl_with c7ctx 100 [(12, 13), (10, 11)] :=
  claim7_order_determinism c7ctx 100 [(10, 11), (12, 13)] [(12, 13), (10, 11)]
    rfl (by decide) (by decide)

/-! Lemmas about the specialization-graph search. -/

theorem mem_get_children {g : Graph} {n x : DefId} (h : x ∈ get_children g n) :
    ∃ p ∈ g.children, p.1 = n ∧ x ∈ p.2.childList := by
  unfold get_children Graph.childrenOf at h
  cases hf : g.children.find? (fun p => p.1 == n) with
  | none => simp [hf] at h
  | some pr =>
    simp only [hf, Option.map_some'] at h
    exact ⟨pr, List.mem_of_find?_eq_some hf, by simpa using List.find?_some hf, h⟩

theorem get_children_subset_allChildren {g : Graph} {n x : DefId}
    (h : x ∈ get_children g n) : x ∈ allChildren g := by
  obtain ⟨p, hp, _, hx⟩ := mem_get_children h
  unfold allChildren
  exact List.mem_flatten.mpr ⟨p.2.childList, List.mem_map.mpr ⟨p, hp, rfl⟩, hx⟩

theorem get_children_nodup {g : Graph}
    (hT1 : ∀ p ∈ g.children, p.2.childList.Nodup) (n : DefId) :
    (get_children g n).Nodup := by
  unfold get_children Graph.childrenOf
  cases hf : g.children.find? (fun p => p.1 == n) with
  | none => simp
  | some pr =>
    simp only [hf, Option.map_some']
    exact hT1 pr (List.mem_of_find?_eq_some hf)

theorem get_children_rank {g : Graph} {rk : DefId → Nat}
    (hT3 : ∀ p ∈ g.children, ∀ x ∈ p.2.childList, rk x < rk p.1)
    {n x : DefId} (h : x ∈ get_children g n) : rk x < rk n := by
  obtain ⟨p, hp, hpn, hx⟩ := mem_get_children h
  exact hpn ▸ hT3 p hp x hx

theorem get_children_parent_unique {g : Graph}
    (hT2 : ∀ p ∈ g.children, ∀ q ∈ g.children, ∀ x,
      x ∈ p.2.childList → x ∈ q.2.childList → p.1 = q.1)
    {n₁ n₂ x : DefId} (h₁ : x ∈ get_children g n₁) (h₂ : x ∈ get_children g n₂) :
    n₁ = n₂ := by
  obtain ⟨p, hp, hpn, hx⟩ := mem_get_children h₁
  obtain ⟨q, hq, hqn, hx2⟩ := mem_get_children h₂
  rw [← hpn, ← hqn]
  exact hT2 p hp q hq x hx hx2

theorem pop_perm (node : DefId) (rest visited : List DefId) :
    ((node :: rest) ++ visited).Perm (rest ++ (visited ++ [node])) := by
  have h1 : rest ++ (visited ++ [node]) = (rest ++ visited) ++ [node] := by
    simp
  rw [h1, List.cons_append]
  exact @List.perm_append_comm _ [node] (rest ++ visited)

theorem searchInv_pop {g : Graph} {rk : DefId → Nat} {start node : DefId}
    {rest visited : List DefId}
    (hInv : SearchInv g rk start (node :: rest) visited) :
    SearchInv g rk start rest (visited ++ [node]) := by
  obtain ⟨hnd, hpar, hrk⟩ := hInv
  have hperm := pop_perm node rest visited
  refine ⟨hperm.nodup hnd, ?_, ?_⟩
  · intro x hx
    obtain ⟨p, hp_or, hcp⟩ := hpar x (hperm.mem_iff.mpr hx)
    exact ⟨p, hp_or.imp id (List.mem_append_left _), hcp⟩
  · intro x hx
    exact hrk x (hperm.mem_iff.mpr hx)

theorem searchInv_push {g : Graph} {rk : DefId → Nat} {start node : DefId}
    {rest visited : List DefId}
    (hT1 : ∀ p ∈ g.children, p.2.childList.Nodup)
    (hT2 : ∀ p ∈ g.children, ∀ q ∈ g.children, ∀ x,
      x ∈ p.2.childList → x ∈ q.2.childList → p.1 = q.1)
    (hT3 : ∀ p ∈ g.children, ∀ x ∈ p.2.childList, rk x < rk p.1)
    (hInv : SearchInv g rk start (node :: rest) visited) :
    SearchInv g rk start ((get_children g node).reverse ++ rest) (visited ++ [node]) := by
  obtain ⟨hnd, hpar, hrk⟩ := hInv
  have hpop := searchInv_pop ⟨hnd, hpar, hrk⟩
  obtain ⟨hnd2, hpar2, hrk2⟩ := hpop
  have hnode_stack : node ∈ (node :: rest) ++ visited := by simp
  have hnode_rk : rk node < rk start := hrk node hnode_stack
  have hnd3 : (node :: (rest ++ visited)).Nodup := by simpa using hnd
  have hnode_nin : node ∉ rest ++ visited := (List.nodup_cons.mp hnd3).1
  have hdisj : ∀ x ∈ get_children g node, x ∉ rest ++ (visited ++ [node]) := by
    intro x hx hmem
    have hxne : x ≠ node := by
      intro h
      subst h
      exact absurd (get_children_rank hT3 hx) (lt_irrefl _)
    have hx_old : x ∈ rest ++ visited := by
      rcases List.mem_append.mp hmem with h | h
      · exact List.mem_append_left _ h
      · rcases List.mem_append.mp h with h2 | h2
        · exact List.mem_append_right _ h2
        · exact absurd (by simpa using h2) hxne
    have hx_orig : x ∈ (node :: rest) ++ visited := by
      rcases List.mem_append.mp hx_old with h | h
      · exact List.mem_append_left _ (List.mem_cons_of_mem _ h)
      · exact List.mem_append_right _ h
    obtain ⟨p, hp_or, hcp⟩ := hpar x hx_orig
    have hpn : p = node := get_children_parent_unique hT2 hcp hx
    rcases hp_or with rfl | hp_vis
    · rw [← hpn] at hnode_rk
      exact absurd hnode_rk (lt_irrefl _)
    · rw [hpn] at hp_vis
      exact hnode_nin (List.mem_append_right _ hp_vis)
  refine ⟨?_, ?_, ?_⟩
  · rw [List.append_assoc]
    refine List.Nodup.append ?_ hnd2 ?_
    · exact List.nodup_reverse.mpr (get_children_nodup hT1 node)
    · intro x hx hx2
      exact hdisj x (List.mem_reverse.mp hx) hx2
  · intro x hx
    rw [List.append_assoc] at hx
    rcases List.mem_append.mp hx with h | h
    · exact ⟨node, Or.inr (by simp), List.mem_reverse.mp h⟩
    · obtain ⟨p, hp_or, hcp⟩ := hpar2 x (List.mem_append.mpr (by simpa using h))
      exact ⟨p, hp_or, hcp⟩
  · intro x hx
    rw [List.append_assoc] at hx
    rcases List.mem_append.mp hx with h | h
    · exact lt_trans (get_children_rank hT3 (List.mem_reverse.mp h)) hnode_rk
    · exact hrk2 x (by simpa using h)

theorem searchLoop_isSome (ctx : Ctx) (g : Graph) (pe : ParamEnv) (item : DefId)
    (tr : TraitRef) (rk : DefId → Nat) (start : DefId)
    (hT1 : ∀ p ∈ g.children, p.2.childList.Nodup)
    (hT2 : ∀ p ∈ g.children, ∀ q ∈ g.children, ∀ x,
      x ∈ p.2.childList → x ∈ q.2.childList → p.1 = q.1)
    (hT3 : ∀ p ∈ g.children, ∀ x ∈ p.2.childList, rk x < rk p.1) :
    ∀ (fuel : Nat) (stack visited : List DefId),
      SearchInv g rk start stack visited →
      (allChildren g).length + 2 ≤ fuel + visited.length →
      (searchLoop ctx g pe item tr fuel stack visited).isSome = true := by
  intro fuel
  induction fuel with
  | zero =>
    intro stack visited hInv hle
    exfalso
    have hnodup : visited.Nodup := hInv.1.of_append_right
    have hsub : visited ⊆ allChildren g := by
      intro x hx
      obtain ⟨p, _, hcp⟩ := hInv.2.1 x (List.mem_append_right _ hx)
      exact get_children_subset_allChildren hcp
    have hlen : visited.length ≤ (allChildren g).length :=
      (List.subperm_of_subset hnodup hsub).length_le
    omega
  | succ fuel ih =>
    intro stack visited hInv hle
    cases stack with
    | nil => simp [searchLoop]
    | cons node rest =>
      simp only [searchLoop]
      split
      · split
        · simp
        · refine ih _ _ (searchInv_push hT1 hT2 hT3 hInv) ?_
          simp only [List.length_append, List.length_cons]
          omega
      · refine ih _ _ (searchInv_pop hInv) ?_
        simp only [List.length_append, List.length_cons]
        omega

theorem searchLoop_nodup (ctx : Ctx) (g : Graph) (pe : ParamEnv) (item : DefId)
    (tr : TraitRef) (rk : DefId → Nat) (start : DefId)
    (hT1 : ∀ p ∈ g.children, p.2.childList.Nodup)
    (hT2 : ∀ p ∈ g.children, ∀ q ∈ g.children, ∀ x,
      x ∈ p.2.childList → x ∈ q.2.childList → p.1 = q.1)
    (hT3 : ∀ p ∈ g.children, ∀ x ∈ p.2.childList, rk x < rk p.1) :
    ∀ (fuel : Nat) (stack visited : List DefId) (b : Bool) (vis : List DefId),
      SearchInv g rk start stack visited →
      searchLoop ctx g pe item tr fuel stack visited = some (b, vis) →
      vis.Nodup := by
  intro fuel
  induction fuel with
  | zero =>
    intro stack visited b vis _ h
    exact Option.noConfusion h
  | succ fuel ih =>
    intro stack visited b vis hInv h
    cases stack with
    | nil =>
      simp only [searchLoop, Option.some.injEq, Prod.mk.injEq] at h
      rw [← h.2]
      exact hInv.1.of_append_right
    | cons node rest =>
      simp only [searchLoop] at h
      split at h
      · split at h
        · simp only [Option.some.injEq, Prod.mk.injEq] at h
          rw [← h.2]
          exact (searchInv_pop hInv).1.of_append_right
        · exact ih _ _ _ _ (searchInv_push hT1 hT2 hT3 hInv) h
      · exact ih _ _ _ _ (searchInv_pop hInv) h

theorem searchLoop_false_trace (ctx : Ctx) (g : Graph) (pe : ParamEnv)
    (item : DefId) (tr : TraitRef) :
    ∀ (fuel : Nat) (stack visited vis : List DefId),
      searchLoop ctx g pe item tr fuel stack visited = some (false, vis) →
      ∀ n ∈ vis, n ∈ visited ∨
        ¬(ctx.unifies pe n tr = true ∧ implementsItem ctx n item = true) := by
  intro fuel
  induction fuel with
  | zero =>
    intro stack visited vis h
    exact Option.noConfusion h
  | succ fuel ih =>
    intro stack visited vis h
    cases stack with
    | nil =>
      simp only [searchLoop, Option.some.injEq, Prod.mk.injEq] at h
      intro n hn
      exact Or.inl (h.2 ▸ hn)
    | cons node rest =>
      simp only [searchLoop] at h
      by_cases hu : ctx.unifies pe node tr = true
      · rw [if_pos hu] at h
        by_cases hi : implementsItem ctx node item = true
        · rw [if_pos hi] at h
          simp at h
        · rw [if_neg hi] at h
          intro n hn
          rcases ih _ _ _ h n hn with hvis | hctr
          · rcases List.mem_append.mp hvis with h1 | h1
            · exact Or.inl h1
            · have hn2 : n = node := by simpa using h1
              subst hn2
              exact Or.inr (fun hc => hi hc.2)
          · exact Or.inr hctr
      · rw [if_neg hu] at h
        intro n hn
        rcases ih _ _ _ h n hn with hvis | hctr
        · rcases List.mem_append.mp hvis with h1 | h1
          · exact Or.inl h1
          · have hn2 : n = node := by simpa using h1
            subst hn2
            exact Or.inr (fun hc => hu hc.1)
        · exact Or.inr hctr

/-! Claim C9. -/

/-- C9: on a forest-shaped specialization graph — each children list is
duplicate-free, no node is the child of two distinct parents, and a rank
function witnesses acyclicity, which is how rustc's specialization graph is
built — the explicit-stack descendant search of `still_specializable` completes
within the canonical fuel (it terminates) and its visited trace contains each
node at most once. -/
theorem claim9_search_terminates_nodup (ctx : Ctx) (g : Graph) (pe : ParamEnv)
    (item : DefId) (tr : TraitRef) (start : DefId) (rk : DefId → Nat)
    (hT1 : ∀ p ∈ g.children, p.2.childList.Nodup)
    (hT2 : ∀ p ∈ g.children, ∀ q ∈ g.children, ∀ x,
      x ∈ p.2.childList → x ∈ q.2.childList → p.1 = q.1)
    (hT3 : ∀ p ∈ g.children, ∀ x ∈ p.2.childList, rk x < rk p.1) :
    searchOk (still_spec_search ctx g pe item tr start) := by
  have hInv0 : SearchInv g rk start ((get_children g start).reverse) [] := by
    refine ⟨?_, ?_, ?_⟩
    · simpa using List.nodup_reverse.mpr (get_children_nodup hT1 start)
    · intro x hx
      exact ⟨start, Or.inl rfl, List.mem_reverse.mp (by simpa using hx)⟩
    · intro x hx
      exact get_children_rank hT3 (List.mem_reverse.mp (by simpa using hx))
  have hsome := searchLoop_isSome ctx g pe item tr rk start hT1 hT2 hT3 (graphFuel g)
    ((get_children g start).reverse) [] hInv0 (by simp [graphFuel])
  unfold still_spec_search
  cases hres : searchLoop ctx g pe item tr (graphFuel g)
      ((get_children g start).reverse) [] with
  | none =>
    rw [hres] at hsome
    exact absurd hsome (by simp)
  | some r =>
    show r.2.Nodup
    exact searchLoop_nodup ctx g pe item tr rk start hT1 hT2 hT3 (graphFuel g)
      ((get_children g start).reverse) [] r.1 r.2 hInv0 (by rw [hres])

/-- Witness for C9 at the concrete graph `c9g` with rank function `c9rank`. -/
theorem claim9_witness : searchOk (still_spec_search baseCtx c9g 0 5 ⟨1, 7⟩ 1) :=
  claim9_search_terminates_nodup baseCtx c9g 0 5 ⟨1, 7⟩ 1 c9rank
    (by decide) (by decide) (by decide)

/-! Claim C3. -/

/-- C3 counterexample: `resolve_item` on `c3ctx` returns `NoInstance`
(proven-absent) although the descendant search was shown node 2, which unifies
with the normalized target reference — it merely does not itself implement item
5, so the search passed through it.  The claim that no shown node unifies with
the target reference is false. -/
theorem claim3_counterexample :
    resolve_item c3ctx ⟨0⟩ 5 7 = some TraitResolved.NoInstance ∧
      still_spec_search c3ctx c3g 0 5 ⟨1, 7⟩ 1 = some (false, [2]) ∧
      c3ctx.unifies 0 2 ⟨1, 7⟩ = true := by
  exact ⟨by decide, by decide, by decide⟩

/-- C3 as amended: for every resolve call returning `NoInstance`
(proven-absent), no implementation node shown to the descendant search both
unifies with the normalized target interface-reference and itself implements
the resolved item; nodes that unify without implementing the item directly are
traversed through, not counted as hits. -/
theorem claim3_proven_absent_sound (ctx : Ctx) (te : TypingEnv) (item tid : DefId)
    (substs : GenArgs) (ntr : TraitRef) (g : Graph)
    (h_tr : ctx.trait_of_item item = some tid)
    (h_norm : ctx.normalize_trait_ref te ⟨tid, ctx.from_method_args tid substs⟩ = ntr)
    (h_g : ctx.specialization_graph ntr.def_id = some g)
    (h_res : resolve_item ctx te item substs = some TraitResolved.NoInstance) :
    noHitTrace ctx te.param_env item ntr
      (still_spec_search ctx g te.param_env item ntr ntr.def_id) := by
  simp only [resolve_item, h_tr, h_norm] at h_res
  cases hsel : ctx.codegen_select te ntr with
  | some src =>
    rw [hsel] at h_res
    cases src with
    | UserDefined ud uargs =>
      cases hss : still_specializable ctx te.param_env item ntr
          (some (ImplSource.UserDefined ud uargs)) with
      | none => simp [hss] at h_res
      | some b =>
        cases b with
        | true => simp [hss] at h_res
        | false =>
          simp only [hss] at h_res
          cases hleaf : ctx.leaf_def ntr.def_id ud item with
          | none => simp [hleaf] at h_res
          | some leaf => simp [hleaf] at h_res
    | Param => simp at h_res
    | Builtin =>
      cases hcl : ctx.type_at0_closure substs with
      | none => simp [hcl] at h_res
      | some pr => simp [hcl] at h_res
  | none =>
    rw [hsel] at h_res
    cases hss : still_specializable ctx te.param_env item ntr none with
    | none => simp [hss] at h_res
    | some b =>
      cases b with
      | true => simp [hss] at h_res
      | false =>
        unfold still_specializable at hss
        rw [h_g] at hss
        simp only [specializableFrom] at hss
        by_cases ho : ctx.orphan_check_remote te.param_env ntr = true
        · rw [if_pos ho] at hss
          exact absurd hss (by simp)
        · rw [if_neg ho] at hss
          cases hsearch : still_spec_search ctx g te.param_env item ntr ntr.def_id with
          | none =>
            rw [hsearch] at hss
            exact absurd hss (by simp)
          | some r =>
            obtain ⟨b2, vis⟩ := r
            rw [hsearch] at hss
            have hb : b2 = false := by simpa using hss
            subst hb
            show ∀ n ∈ vis, ¬(ctx.unifies te.param_env n ntr = true ∧
              implementsItem ctx n item = true)
            intro n hn
            have htr := searchLoop_false_trace ctx g te.param_env item ntr
              (graphFuel g) ((get_children g ntr.def_id).reverse) [] vis hsearch n hn
            rcases htr with h1 | h1
            · exact absurd h1 (List.not_mem_nil n)
            · exact h1

/-- Witness for C3 as amended at the concrete context `c3ctx`. -/
theorem claim3_witness :
    noHitTrace c3ctx 0 5 ⟨1, 7⟩ (still_spec_search c3ctx c3g 0 5 ⟨1, 7⟩ 1) :=
  claim3_proven_absent_sound c3ctx ⟨0⟩ 5 1 7 ⟨1, 7⟩ c3g rfl rfl rfl (by decide)

/-! Free-variable lemmas for the refinement term. -/

theorem mem_freeVars_substVars :
    ∀ (t : Term) (σ : Ident → Option Ident) (y : Ident),
      y ∈ (t.substVars σ).freeVars →
      ∃ x ∈ t.freeVars, σ x = some y ∨ (σ x = none ∧ y = x) := by
  intro t
  induction t with
  | var x sp =>
    intro σ y hy
    simp only [Term.substVars] at hy
    cases hσ : σ x with
    | none =>
      rw [hσ] at hy
      simp only [Term.freeVars, List.mem_singleton] at hy
      exact ⟨x, by simp [Term.freeVars], Or.inr ⟨hσ, hy⟩⟩
    | some z =>
      rw [hσ] at hy
      simp only [Term.freeVars, List.mem_singleton] at hy
      exact ⟨x, by simp [Term.freeVars], Or.inl (by rw [hσ, hy])⟩
  | litTrue sp =>
    intro σ y hy
    simp [Term.substVars, Term.freeVars] at hy
  | conj l r sp ihl ihr =>
    intro σ y hy
    simp only [Term.substVars, Term.freeVars, List.mem_append] at hy
    rcases hy with hy | hy
    · obtain ⟨x, hx, hc⟩ := ihl σ y hy
      exact ⟨x, List.mem_append.mpr (Or.inl hx), hc⟩
    · obtain ⟨x, hx, hc⟩ := ihr σ y hy
      exact ⟨x, List.mem_append.mpr (Or.inr hx), hc⟩
  | implies l r sp ihl ihr =>
    intro σ y hy
    simp only [Term.substVars, Term.freeVars, List.mem_append] at hy
    rcases hy with hy | hy
    · obtain ⟨x, hx, hc⟩ := ihl σ y hy
      exact ⟨x, List.mem_append.mpr (Or.inl hx), hc⟩
    · obtain ⟨x, hx, hc⟩ := ihr σ y hy
      exact ⟨x, List.mem_append.mpr (Or.inr hx), hc⟩
  | forallT x ty b sp ih =>
    intro σ y hy
    simp only [Term.substVars, Term.freeVars, List.mem_filter, bne_iff_ne, ne_eq,
      decide_eq_true_eq] at hy
    obtain ⟨hy1, hy2⟩ := hy
    obtain ⟨z, hz, hc⟩ := ih _ y hy1
    by_cases hzx : z = x
    · subst hzx
      rcases hc with hcs | ⟨hcn, hyz⟩
      · simp at hcs
      · exact absurd hyz hy2
    · rw [if_neg hzx] at hc
      refine ⟨z, ?_, hc⟩
      simp only [Term.freeVars, List.mem_filter, bne_iff_ne, ne_eq, decide_eq_true_eq]
      exact ⟨hz, hzx⟩

theorem mem_freeVars_substVars_none :
    ∀ (t : Term) (σ : Ident → Option Ident) (x : Ident),
      σ x = none → x ∈ t.freeVars → x ∈ (t.substVars σ).freeVars := by
  intro t
  induction t with
  | var z sp =>
    intro σ x hσ hx
    have hxz : x = z := by simpa [Term.freeVars] using hx
    subst hxz
    simp [Term.substVars, hσ, Term.freeVars]
  | litTrue sp =>
    intro σ x hσ hx
    simp [Term.freeVars] at hx
  | conj l r sp ihl ihr =>
    intro σ x hσ hx
    rcases List.mem_append.mp hx with h | h
    · exact List.mem_append.mpr (Or.inl (ihl σ x hσ h))
    · exact List.mem_append.mpr (Or.inr (ihr σ x hσ h))
  | implies l r sp ihl ihr =>
    intro σ x hσ hx
    rcases List.mem_append.mp hx with h | h
    · exact List.mem_append.mpr (Or.inl (ihl σ x hσ h))
    · exact List.mem_append.mpr (Or.inr (ihr σ x hσ h))
  | forallT z ty b sp ih =>
    intro σ x hσ hx
    simp only [Term.freeVars, Term.substVars, List.mem_filter, bne_iff_ne, ne_eq,
      decide_eq_true_eq] at hx ⊢
    obtain ⟨hx1, hx2⟩ := hx
    refine ⟨ih _ x ?_ hx1, hx2⟩
    simp [hx2, hσ]

theorem mem_freeVars_foldr_foralls (sp : Span) :
    ∀ (args : List (Ident × Ty)) (t : Term) (x : Ident),
      x ∈ (args.foldr (fun r acc => (acc.forallD r).withSpan sp) t).freeVars ↔
        x ∈ t.freeVars ∧ ∀ r ∈ args, x ≠ r.1 := by
  intro args
  induction args with
  | nil => intro t x; simp
  | cons r rest ih =>
    intro t x
    simp only [List.foldr_cons, freeVars_withSpan, freeVars_forallD, List.mem_filter,
      bne_iff_ne, ne_eq, decide_eq_true_eq, ih, List.mem_cons]
    constructor
    · rintro ⟨⟨h1, h2⟩, h3⟩
      refine ⟨h1, fun q hq => ?_⟩
      rcases hq with rfl | hq
      · exact h3
      · exact h2 q hq
    · rintro ⟨h1, h2⟩
      exact ⟨⟨h1, fun q hq => h2 q (Or.inr hq)⟩, h2 r (Or.inl rfl)⟩

theorem mem_freeVars_conjListD :
    ∀ (l : List Term) (x : Ident),
      x ∈ (conjListD l).freeVars → ∃ t ∈ l, x ∈ t.freeVars := by
  have aux : ∀ (ts : List Term) (acc : Term) (x : Ident),
      x ∈ (ts.foldl Term.conjD acc).freeVars →
      x ∈ acc.freeVars ∨ ∃ t ∈ ts, x ∈ t.freeVars := by
    intro ts
    induction ts with
    | nil => intro acc x h; exact Or.inl h
    | cons u ts ih =>
      intro acc x h
      rcases ih _ x h with h2 | ⟨t, ht, hx⟩
      · rcases List.mem_append.mp h2 with h3 | h3
        · exact Or.inl h3
        · exact Or.inr ⟨u, List.mem_cons_self u ts, h3⟩
      · exact Or.inr ⟨t, List.mem_cons_of_mem _ ht, hx⟩
  intro l x h
  cases l with
  | nil => simp [conjListD, Term.freeVars] at h
  | cons t ts =>
    rcases aux ts t x h with h2 | ⟨u, hu, hx⟩
    · exact ⟨t, List.mem_cons_self t ts, h2⟩
    · exact ⟨u, List.mem_cons_of_mem _ hu, hx⟩

theorem foldl_subst_none :
    ∀ (ps : List ((Ident × Span × Ty) × (Ident × Span × Ty)))
      (m0 : Ident → Option Ident) (x : Ident), (∀ p ∈ ps, p.2.1 ≠ x) →
      (ps.foldl (fun m p => fun z => if z = p.2.1 then some p.1.1 else m z) m0) x = m0 x := by
  intro ps
  induction ps with
  | nil => intro m0 x _; rfl
  | cons p ps ih =>
    intro m0 x h
    rw [List.foldl_cons, ih _ x (fun q hq => h q (List.mem_cons_of_mem _ hq))]
    have hne : ¬x = p.2.1 := fun hh => (h p (List.mem_cons_self p ps)) hh.symm
    simp [hne]

theorem foldl_subst_some :
    ∀ (ps : List ((Ident × Span × Ty) × (Ident × Span × Ty)))
      (m0 : Ident → Option Ident) (x y : Ident),
      (ps.foldl (fun m p => fun z => if z = p.2.1 then some p.1.1 else m z) m0) x = some y →
      (∃ p ∈ ps, p.2.1 = x ∧ p.1.1 = y) ∨ m0 x = some y := by
  intro ps
  induction ps with
  | nil => intro m0 x y h; exact Or.inr h
  | cons p ps ih =>
    intro m0 x y h
    rw [List.foldl_cons] at h
    rcases ih _ x y h with ⟨q, hq, h1, h2⟩ | h2
    · exact Or.inl ⟨q, List.mem_cons_of_mem _ hq, h1, h2⟩
    · by_cases hx : x = p.2.1
      · simp only [hx, if_true] at h2
        exact Or.inl ⟨p, List.mem_cons_self p ps, hx.symm, Option.some.inj h2⟩
      · simp only [hx, if_false] at h2
        exact Or.inr h2

theorem foldl_subst_isSome :
    ∀ (ps : List ((Ident × Span × Ty) × (Ident × Span × Ty)))
      (m0 : Ident → Option Ident) (x : Ident),
      ((∃ p ∈ ps, p.2.1 = x) ∨ (m0 x).isSome = true) →
      (((ps.foldl (fun m p => fun z => if z = p.2.1 then some p.1.1 else m z) m0) x).isSome
        = true) := by
  intro ps
  induction ps with
  | nil =>
    intro m0 x h
    rcases h with ⟨p, hp, _⟩ | h
    · exact absurd hp (List.not_mem_nil p)
    · exact h
  | cons p ps ih =>
    intro m0 x h
    rw [List.foldl_cons]
    rcases h with ⟨q, hq, hqx⟩ | h
    · rcases List.mem_cons.mp hq with rfl | hq2
      · refine ih _ x (Or.inr ?_)
        simp [hqx.symm]
      · exact ih _ x (Or.inl ⟨q, hq2, hqx⟩)
    · refine ih _ x (Or.inr ?_)
      by_cases hx : x = p.2.1
      · simp [hx]
      · simp [hx, h]

theorem sharedSubst_none {tsg isg : PreSignature} {x : Ident}
    (h : ∀ p ∈ tsg.inputs.zip isg.inputs, p.2.1 ≠ x) :
    sharedSubst tsg isg x = none := by
  unfold sharedSubst
  rw [foldl_subst_none _ _ x h]

theorem sharedSubst_some {tsg isg : PreSignature} {x y : Ident}
    (h : sharedSubst tsg isg x = some y) :
    ∃ p ∈ tsg.inputs.zip isg.inputs, p.2.1 = x ∧ p.1.1 = y := by
  unfold sharedSubst at h
  rcases foldl_subst_some _ _ x y h with h2 | h2
  · exact h2
  · exact Option.noConfusion h2

theorem sharedSubst_isSome {tsg isg : PreSignature} {x : Ident}
    (h : ∃ p ∈ tsg.inputs.zip isg.inputs, p.2.1 = x) :
    (sharedSubst tsg isg x).isSome = true := by
  unfold sharedSubst
  exact foldl_subst_isSome _ _ x (Or.inl h)

theorem sharedParams_map_fst {tsg isg : PreSignature}
    (h : tsg.inputs.length ≤ isg.inputs.length) :
    (sharedParams tsg isg).map Prod.fst = inputIds tsg := by
  unfold sharedParams inputIds
  rw [List.map_map]
  have h1 : (Prod.fst ∘ fun p : (Ident × Span × Ty) × (Ident × Span × Ty) =>
      (p.1.1, p.2.2.2)) = (fun q : Ident × Span × Ty => q.1) ∘ Prod.fst := rfl
  rw [h1, ← List.map_map, List.map_fst_zip _ _ h]

theorem mem_zip_keys_of_inputIds {tsg isg : PreSignature} {x : Ident}
    (h_len : isg.inputs.length ≤ tsg.inputs.length) (h : x ∈ inputIds isg) :
    ∃ p ∈ tsg.inputs.zip isg.inputs, p.2.1 = x := by
  unfold inputIds at h
  obtain ⟨q, hq, hqx⟩ := List.mem_map.mp h
  have h2 : q ∈ (tsg.inputs.zip isg.inputs).map Prod.snd := by
    rw [List.map_snd_zip _ _ h_len]
    exact hq
  obtain ⟨p, hp, hpq⟩ := List.mem_map.mp h2
  exact ⟨p, hp, by rw [hpq, hqx]⟩

theorem zip_key_mem_inputIds {tsg isg : PreSignature}
    {p : (Ident × Span × Ty) × (Ident × Span × Ty)}
    (hp : p ∈ tsg.inputs.zip isg.inputs) : p.2.1 ∈ inputIds isg := by
  obtain ⟨a, b⟩ := p
  have hb := (List.of_mem_zip hp).2
  exact List.mem_map.mpr ⟨b, hb, rfl⟩

theorem refinement_term_of_sigs_closed (ctx : Ctx) (i : DefId)
    (tsg isg : PreSignature)
    (h_len : tsg.inputs.length = isg.inputs.length)
    (h_tr : ∀ c ∈ tsg.contract.requires, ∀ x ∈ c.freeVars, x ∈ inputIds tsg)
    (h_te : ∀ c ∈ tsg.contract.ensures, ∀ x ∈ c.freeVars,
      x ∈ inputIds tsg ∨ x = resultIdent)
    (h_ir : ∀ c ∈ isg.contract.requires, ∀ x ∈ c.freeVars, x ∈ inputIds isg)
    (h_ie : ∀ c ∈ isg.contract.ensures, ∀ x ∈ c.freeVars,
      x ∈ inputIds isg ∨ x = resultIdent)
    (h_res : resultIdent ∉ inputIds isg) :
    (refinement_term_of_sigs ctx i tsg isg).freeVars = [] := by
  rw [List.eq_nil_iff_forall_not_mem]
  intro x hx
  simp only [refinement_term_of_sigs] at hx
  rw [mem_freeVars_foldr_foralls] at hx
  obtain ⟨hx1, hx2⟩ := hx
  have hx_not_trait : x ∉ inputIds tsg := by
    intro hmem
    rw [← sharedParams_map_fst (le_of_eq h_len)] at hmem
    obtain ⟨r, hr, hrx⟩ := List.mem_map.mp hmem
    exact hx2 r hr hrx.symm
  simp only [freeVars_impliesD, freeVars_conjD, List.mem_append] at hx1
  rcases hx1 with hA | hB | hC
  · obtain ⟨c, hc, hxc⟩ := mem_freeVars_conjListD _ x hA
    exact hx_not_trait (h_tr c hc x hxc)
  · obtain ⟨z, hz, hc⟩ := mem_freeVars_substVars _ _ x hB
    obtain ⟨c, hcm, hzc⟩ := mem_freeVars_conjListD _ z hz
    have hz_impl : z ∈ inputIds isg := h_ir c hcm z hzc
    rcases hc with hsome | ⟨hnone, rfl⟩
    · obtain ⟨p, hp, _, hpx⟩ := sharedSubst_some hsome
      apply hx_not_trait
      rw [← sharedParams_map_fst (le_of_eq h_len)]
      exact List.mem_map.mpr ⟨(p.1.1, p.2.2.2), List.mem_map.mpr ⟨p, hp, rfl⟩, hpx⟩
    · have hkey := mem_zip_keys_of_inputIds (le_of_eq h_len.symm) hz_impl
      have hs := sharedSubst_isSome hkey
      rw [hnone] at hs
      exact absurd hs (by simp)
  · simp only [freeVars_withSpan, freeVars_forallD, freeVars_impliesD, List.mem_filter,
      List.mem_append, bne_iff_ne, ne_eq, decide_eq_true_eq] at hC
    obtain ⟨hC1, hC2⟩ := hC
    rcases hC1 with hQ | hQ
    · obtain ⟨z, hz, hc⟩ := mem_freeVars_substVars _ _ x hQ
      obtain ⟨c, hcm, hzc⟩ := mem_freeVars_conjListD _ z hz
      rcases h_ie c hcm z hzc with hz_impl | hz_res
      · rcases hc with hsome | ⟨hnone, rfl⟩
        · obtain ⟨p, hp, _, hpx⟩ := sharedSubst_some hsome
          apply hx_not_trait
          rw [← sharedParams_map_fst (le_of_eq h_len)]
          exact List.mem_map.mpr ⟨(p.1.1, p.2.2.2), List.mem_map.mpr ⟨p, hp, rfl⟩, hpx⟩
        · have hkey := mem_zip_keys_of_inputIds (le_of_eq h_len.symm) hz_impl
          have hs := sharedSubst_isSome hkey
          rw [hnone] at hs
          exact absurd hs (by simp)
      · subst hz_res
        rcases hc with hsome | ⟨_, hxz⟩
        · obtain ⟨p, hp, hpk, _⟩ := sharedSubst_some hsome
          exact h_res (hpk ▸ zip_key_mem_inputIds hp)
        · exact hC2 hxz
    · obtain ⟨c, hc, hxc⟩ := mem_freeVars_conjListD _ x hQ
      rcases h_te c hc x hxc with h1 | h1
      · exact hx_not_trait h1
      · exact hC2 h1

/-! Claim C6. -/

/-- C6 counterexample: with empty contracts the produced refinement term has no
free identifiers at all, although a shared parameter identifier (1) was
introduced for the positional correspondence — so the free identifiers are not
"exactly the shared parameter identifiers plus the result identifier". -/
theorem claim6_counterexample :
    (logic_refinement_term c6ctx 20 10 0).freeVars = [] ∧
      (sharedParams traitSigNoContract implSigNoContract).map Prod.fst = [1] := by
  exact ⟨by decide, by decide⟩

/-- C6 as amended: provided the two signatures pair all their parameters (equal
lengths), each contract only mentions its own parameters (plus `result` in
postconditions), and no implementation parameter is the result identifier, the
refinement term produced for a pairing is closed — its free identifiers are
contained in (not equal to) the shared parameter identifiers plus the result
identifier, all of which are bound by the introduced quantifiers, and in
particular no implementation-side parameter identifier occurs unsubstituted. -/
theorem claim6_refinement_closed (ctx : Ctx) (i t : DefId) (s : GenArgs)
    (tsg isg : PreSignature)
    (hts : (refinement_sigs ctx i t s).1 = tsg)
    (his : (refinement_sigs ctx i t s).2 = isg)
    (h_len : tsg.inputs.length = isg.inputs.length)
    (h_tr : ∀ c ∈ tsg.contract.requires, ∀ x ∈ c.freeVars, x ∈ inputIds tsg)
    (h_te : ∀ c ∈ tsg.contract.ensures, ∀ x ∈ c.freeVars,
      x ∈ inputIds tsg ∨ x = resultIdent)
    (h_ir : ∀ c ∈ isg.contract.requires, ∀ x ∈ c.freeVars, x ∈ inputIds isg)
    (h_ie : ∀ c ∈ isg.contract.ensures, ∀ x ∈ c.freeVars,
      x ∈ inputIds isg ∨ x = resultIdent)
    (h_res : resultIdent ∉ inputIds isg) :
    (logic_refinement_term ctx i t s).freeVars = [] := by
  have hterm : logic_refinement_term ctx i t s = refinement_term_of_sigs ctx i tsg isg := by
    simp only [logic_refinement_term]
    rw [hts, his]
  rw [hterm]
  exact refinement_term_of_sigs_closed ctx i tsg isg h_len h_tr h_te h_ir h_ie h_res

/-- Witness for C6 as amended at the concrete context `c1ctx`, whose contracts
mention exactly the parameters and the result. -/
theorem claim6_witness :
    (refinement_sigs c1ctx 20 10 0).1 = traitSigEx ∧
      (logic_refinement_term c1ctx 20 10 0).freeVars = [] :=
  ⟨rfl, claim6_refinement_closed c1ctx 20 10 0 traitSigEx implSigEx rfl rfl rfl
    (by decide) (by decide) (by decide) (by decide) (by decide)⟩

/-! Claim C10. -/

theorem leadingForalls_forallD_withSpan (u : Term) (r : Ident × Ty) (sp : Span) :
    ((u.forallD r).withSpan sp).leadingForalls = r :: u.leadingForalls := rfl

theorem leadingForalls_foldr (sp : Span) :
    ∀ (args : List (Ident × Ty)) (a b : Term),
      ((args.foldr (fun r acc => (acc.forallD r).withSpan sp) (a.impliesD b))).leadingForalls
        = args := by
  intro args a b
  induction args with
  | nil => rfl
  | cons r rest ih =>
    rw [List.foldr_cons, leadingForalls_forallD_withSpan, ih]

/-- C10: when the interface and implementation signatures have different numbers
of parameters, `logic_refinement_term` pairs only the common prefix of the two
parameter lists (the quantifier prefix of the produced term is exactly the
positional zip, of length the minimum of the two lengths) and reports no error
(the function is total by construction); an implementation-side parameter
identifier beyond the zipped prefix receives no substitution, so if the
implementation precondition mentions it (and it collides with no shared
identifier) it remains free in the produced term. -/
theorem claim10_zip_truncation (ctx : Ctx) (i t : DefId) (s : GenArgs)
    (tsg isg : PreSignature) (x : Ident)
    (hts : (refinement_sigs ctx i t s).1 = tsg)
    (his : (refinement_sigs ctx i t s).2 = isg)
    (h_x_free : x ∈ (isg.contract.requires_conj).freeVars)
    (h_not_key : ∀ p ∈ tsg.inputs.zip isg.inputs, p.2.1 ≠ x)
    (h_not_shared : ∀ p ∈ tsg.inputs.zip isg.inputs, p.1.1 ≠ x) :
    (logic_refinement_term ctx i t s).leadingForalls = sharedParams tsg isg ∧
      (sharedParams tsg isg).length = min tsg.inputs.length isg.inputs.length ∧
      x ∈ (logic_refinement_term ctx i t s).freeVars := by
  have hterm : logic_refinement_term ctx i t s = refinement_term_of_sigs ctx i tsg isg := by
    simp only [logic_refinement_term]
    rw [hts, his]
  refine ⟨?_, ?_, ?_⟩
  · rw [hterm]
    simp only [refinement_term_of_sigs]
    exact leadingForalls_foldr _ _ _ _
  · simp [sharedParams, List.length_zip]
  · rw [hterm]
    simp only [refinement_term_of_sigs]
    rw [mem_freeVars_foldr_foralls]
    constructor
    · simp only [freeVars_impliesD, freeVars_conjD, List.mem_append]
      refine Or.inr (Or.inl ?_)
      exact mem_freeVars_substVars_none _ _ x (sharedSubst_none h_not_key) h_x_free
    · intro r hr hxr
      obtain ⟨p, hp, hpr⟩ := List.mem_map.mp hr
      rw [← hpr] at hxr
      exact h_not_shared p hp hxr.symm

/-- Witness for C10 at the concrete context `c10ctx`: the trait item has one
parameter, the impl item two, and the surplus identifier 3 occurs in the impl
precondition. -/
theorem claim10_witness :
    (logic_refinement_term c10ctx 20 10 0).leadingForalls =
        sharedParams traitSigEx implSigSurplus ∧
      (sharedParams traitSigEx implSigSurplus).length =
        min traitSigEx.inputs.length implSigSurplus.inputs.length ∧
      3 ∈ (logic_refinement_term c10ctx 20 10 0).freeVars :=
  claim10_zip_truncation c10ctx 20 10 0 traitSigEx implSigSurplus 3 rfl rfl
    (by decide) (by decide) (by decide)

end CreusotTraits
